import Mathlib

set_option autoImplicit false

namespace SelamConfig

/-! Shallow embedding of the layered configuration resolution engine of
the SelamAI repository.  The repository snapshot carries the design
documentation (docs/CONFIGURATION.md, the implementation summary) and the
frontend, but the backend sources it describes (backend/config/loader.py,
backend/config/models.py, backend/config/cli.py, backend/api.py) are not
part of the snapshot, so the engine is modelled from the specification:
every definition whose doc comment starts with "Modelled from the spec"
follows the spec's words for the missing code.  The TypeScript loadConfig
helper printed in docs/CONFIGURATION.md is present in the snapshot and is
embedded from that source. -/

/-- Modelled from the spec: RawMapping values are generic nested YAML data
(scalars, lists, nested mappings) as produced by parsing one textual
configuration document.  The backend parser code (backend/config/loader.py)
is not part of the repository snapshot, so the shape is taken from the
spec's RawMapping description. -/
inductive Yaml : Type where
  | str : String → Yaml
  | int : Int → Yaml
  | bool : Bool → Yaml
  | null : Yaml
  | list : List Yaml → Yaml
  | map : List (String × Yaml) → Yaml

/-- YamlMap is the nested key-to-value mapping layer of a YAML document,
with insertion order preserved (Python dict semantics). -/
abbrev YamlMap : Type := List (String × Yaml)

/-- YamlMap.find returns the value stored at the first occurrence of a key,
as Python dict lookup does (keys are unique in parsed documents). -/
def YamlMap.find : YamlMap → String → Option Yaml
  | [], _ => none
  | (k, v) :: rest, key => if k = key then some v else YamlMap.find rest key

/-- YamlMap.set is Python dict assignment: an existing key keeps its
position and gets the new value; a new key is appended at the end. -/
def YamlMap.set : YamlMap → String → Yaml → YamlMap
  | [], key, val => [(key, val)]
  | (k, v) :: rest, key, val =>
      if k = key then (k, val) :: rest else (k, v) :: YamlMap.set rest key val

/-- YamlMap.keys lists the keys of a mapping in order. -/
def YamlMap.keys : YamlMap → List String
  | [] => []
  | (k, _) :: rest => k :: YamlMap.keys rest

/-- Modelled from the spec: the Layer Merger's recursive deep-merge
(backend/config/loader.py is not in the snapshot).  For each key of the
override, if both the base value and the override value are nested
mappings they are merged recursively; otherwise the override value
replaces the base value wholesale.  Keys only in the base are preserved,
keys only in the override are added. -/
def deepMerge : YamlMap → YamlMap → YamlMap
  | result, [] => result
  | result, (k, v) :: rest =>
      match YamlMap.find result k, v with
      | some (.map bm), .map om =>
          deepMerge (YamlMap.set result k (.map (deepMerge bm om))) rest
      | _, _ => deepMerge (YamlMap.set result k v) rest
termination_by _ o => sizeOf o

/-- mergeAtKey describes, per key, what the deep-merge delivers given the
base's value and the override's value at that key (none meaning absent). -/
def mergeAtKey : Option Yaml → Option Yaml → Option Yaml
  | r, none => r
  | some (.map bm), some (.map om) => some (.map (deepMerge bm om))
  | _, some v => some v

/-- Env is a snapshot of the process environment variables: a name is
mapped to its value when the variable is set, and to none otherwise. -/
abbrev Env : Type := String → Option String

/-- splitVarDefault splits a token body at the first ":-" separator into
the variable name and the optional default text. -/
def splitVarDefault : List Char → List Char × Option (List Char)
  | [] => ([], none)
  | ':' :: '-' :: rest => ([], some rest)
  | c :: rest =>
      let p := splitVarDefault rest
      (c :: p.1, p.2)

/-- Modelled from the spec: resolution of one substitution token body
(backend/config/loader.py is not in the snapshot).  A token with body NAME
is replaced by the variable's value when set and kept verbatim (dollar,
braces included) when unset; a token with body NAME:-default is replaced
by the variable's value when set and by the default text when unset. -/
def applyVar (env : Env) (body : List Char) : List Char :=
  match splitVarDefault body with
  | (name, none) =>
      match env (String.mk name) with
      | some v => v.data
      | none => '$' :: '\x7b' :: (body ++ ['\x7d'])
  | (name, some d) =>
      match env (String.mk name) with
      | some v => v.data
      | none => d

/-- Modelled from the spec: the substitution scanner over the characters
of one string value (backend/config/loader.py is not in the snapshot).
Outside a token (mode none) characters are copied; a dollar-open-brace
pair enters a token whose body is buffered until the closing brace, at
which point applyVar's replacement is emitted and scanning resumes after
the token, so a substituted value is never itself re-expanded.  An
unclosed token is emitted verbatim. -/
def scanAux (env : Env) : Option (List Char) → List Char → List Char
  | none, [] => []
  | some buf, [] => '$' :: '\x7b' :: buf
  | none, '$' :: '\x7b' :: rest => scanAux env (some []) rest
  | none, c :: rest => c :: scanAux env none rest
  | some buf, '\x7d' :: rest => applyVar env buf ++ scanAux env none rest
  | some buf, c :: rest => scanAux env (some (buf ++ [c])) rest

/-- substString performs environment-variable substitution on one string
leaf value of a parsed document. -/
def substString (env : Env) (s : String) : String :=
  String.mk (scanAux env none s.data)

mutual

/-- Modelled from the spec: the Document Loader recursively walks all
string leaf values of a parsed document and substitutes tokens in each;
keys and non-string scalars are untouched. -/
def substYaml (env : Env) : Yaml → Yaml
  | .str s => .str (substString env s)
  | .int n => .int n
  | .bool b => .bool b
  | .null => .null
  | .list l => .list (substSeq env l)
  | .map m => .map (substPairs env m)

/-- substSeq applies substitution to every element of a sequence value. -/
def substSeq (env : Env) : List Yaml → List Yaml
  | [] => []
  | y :: rest => substYaml env y :: substSeq env rest

/-- substPairs applies substitution to every value of a nested mapping. -/
def substPairs (env : Env) : List (String × Yaml) → List (String × Yaml)
  | [] => []
  | (k, v) :: rest => (k, substYaml env v) :: substPairs env rest

end

/-- substMap applies substitution to every value of a resolved mapping. -/
def substMap (env : Env) (m : YamlMap) : YamlMap :=
  substPairs env m

/-- Violation is one schema violation: the field path, the violated
constraint, and the offending value (none when the field is missing). -/
structure Violation where
  fieldPath : String
  constraintText : String
  offending : Option Yaml

/-- Modelled from the spec: one declared field of a schema as a tagged
field descriptor (name, required flag, constraint predicate with its
description), per the spec's Validator/Binder design note; the Pydantic
models (backend/config/models.py) are not in the snapshot. -/
structure FieldSpec where
  name : String
  required : Bool
  check : Yaml → Bool
  constraintText : String

/-- Schema declares the typed shape of one configuration domain. -/
abbrev Schema := List FieldSpec

/-- fieldViolations returns the violations a mapping commits against one
declared field: a required field that is absent, or a present value that
fails the field's constraint predicate. -/
def fieldViolations (m : YamlMap) (f : FieldSpec) : List Violation :=
  match YamlMap.find m f.name with
  | none => if f.required then [⟨f.name, "required field is missing", none⟩] else []
  | some v => if f.check v then [] else [⟨f.name, f.constraintText, some v⟩]

/-- violations collects every violation of every declared field of the
schema, in schema order, without stopping at the first one. -/
def violations (sch : Schema) (m : YamlMap) : List Violation :=
  (sch.map (fieldViolations m)).flatten

/-- ValidationError carries the complete list of violations found while
binding one mapping. -/
structure ValidationError where
  violationList : List Violation

/-- Modelled from the spec: the Validator/Binder binds a resolved mapping
onto the domain's schema, returning the bound document on success and a
single ValidationError carrying all collected violations otherwise
(backend/config/models.py is not in the snapshot). -/
def bindDocument (sch : Schema) (m : YamlMap) : Except ValidationError YamlMap :=
  match violations sch m with
  | [] => .ok m
  | v :: vs => .error ⟨v :: vs⟩

/-- portCheck is the schema constraint for TCP port fields: an integer in
the inclusive range 1 to 65535. -/
def portCheck : Yaml → Bool
  | .int n => decide (1 ≤ n ∧ n ≤ 65535)
  | _ => false

/-- portSchema is the fragment of the main-domain schema constraining the
port field, as documented in docs/CONFIGURATION.md (Validation Rules). -/
def portSchema : Schema :=
  [⟨"port", true, portCheck, "port must be between 1 and 65535"⟩]

/-- DocKey identifies a configuration document by domain and optional
name (the name is required only for collection domains). -/
structure DocKey where
  domain : String
  name : Option String
deriving DecidableEq

/-- ConfigError is the error taxonomy of the loader core. -/
inductive ConfigError where
  | notFound (domain : String) (name : Option String)
  | parseFailed (path : String) (msg : String)
  | validation (e : ValidationError)

/-- Modelled from the spec: the read-only sources a loader instance is
constructed over — the parsed base file per document (none when the file
is absent), the parsed environment override file per environment name and
document, the environment-variable snapshot, the active environment name,
and the catalog of discoverable documents (the directory scan). -/
structure Sources where
  baseFile : DocKey → Option YamlMap
  overrideFile : String → DocKey → Option YamlMap
  envVars : Env
  activeEnv : Option String
  available : List DocKey

/-- Modelled from the spec: the load-merge-substitute pipeline — read the
base file (NotFoundError when absent), merge the environment override
over it when an environment is active and an override file exists, then
apply environment-variable substitution. -/
def loadResolved (s : Sources) (k : DocKey) : Except ConfigError YamlMap :=
  match s.baseFile k with
  | none => .error (.notFound k.domain k.name)
  | some base =>
      let merged :=
        match s.activeEnv with
        | none => base
        | some e =>
            match s.overrideFile e k with
            | none => base
            | some ov => deepMerge base ov
      .ok (substMap s.envVars merged)

/-- resolveDoc is the full load-merge-substitute-validate pipeline for one
document: the resolved mapping is bound against the domain's schema. -/
def resolveDoc (s : Sources) (sch : String → Schema) (k : DocKey) :
    Except ConfigError YamlMap :=
  match loadResolved s k with
  | .error e => .error e
  | .ok m =>
      match bindDocument (sch k.domain) m with
      | .error e => .error (.validation e)
      | .ok b => .ok b

/-- Doc is a resolved ConfigDocument: immutable once created, carrying a
distinct instance identifier so that a reload visibly produces a new
instance rather than mutating the old one. -/
structure Doc where
  instanceId : Nat
  content : YamlMap

/-- LoaderState is the Cache Controller's state: the memoization table
from document key to resolved document, and the next fresh instance
identifier. -/
structure LoaderState where
  cache : List (DocKey × Doc)
  nextId : Nat

/-- lookupKey reads the memoization table. -/
def lookupKey : List (DocKey × Doc) → DocKey → Option Doc
  | [], _ => none
  | (k0, d) :: rest, k => if k0 = k then some d else lookupKey rest k

/-- Modelled from the spec: get returns the memoized document when one is
present and otherwise runs the full pipeline, memoizes the result and
returns it; a fresh document receives a new instance identifier
(backend/config/loader.py is not in the snapshot). -/
def getDoc (s : Sources) (sch : String → Schema) (st : LoaderState)
    (k : DocKey) : Except ConfigError (Doc × LoaderState) :=
  match lookupKey st.cache k with
  | some d => .ok (d, st)
  | none =>
      match resolveDoc s sch k with
      | .error e => .error e
      | .ok m =>
          .ok (⟨st.nextId, m⟩,
            ⟨(k, (⟨st.nextId, m⟩ : Doc)) :: st.cache, st.nextId + 1⟩)

/-- Modelled from the spec: reloadAll clears every cache entry
unconditionally; documents already handed out are untouched. -/
def reloadAll (st : LoaderState) : LoaderState :=
  ⟨[], st.nextId⟩

/-- StWF is the Cache Controller's invariant: every memoized document has
passed validation for its domain and carries an instance identifier below
the next fresh one. -/
def StWF (sch : String → Schema) (st : LoaderState) : Prop :=
  ∀ p ∈ st.cache,
    violations (sch p.1.domain) p.2.content = [] ∧ p.2.instanceId < st.nextId

/-- checkDoc runs the pipeline for one document and keeps only the
outcome, as the validate-everything operation does per document. -/
def checkDoc (s : Sources) (sch : String → Schema) (k : DocKey) :
    Except ConfigError Unit :=
  match resolveDoc s sch k with
  | .error e => .error e
  | .ok _ => .ok ()

/-- Modelled from the spec: validateAll attempts every discoverable
document across every domain and reports one (document, outcome) entry
per document without stopping at the first failure
(backend/config/cli.py and backend/api.py are not in the snapshot). -/
def validateAll (s : Sources) (sch : String → Schema) :
    List (DocKey × Except ConfigError Unit) :=
  s.available.map (fun k => (k, checkDoc s sch k))

/-- HVal is a value stored in a heap dict: an inline scalar-or-list value,
or a reference to another dict living in the heap.  This mirrors Python's
object model, where nested dicts are shared by reference. -/
inductive HVal where
  | prim : Yaml → HVal
  | ref : Nat → HVal

/-- HDict is the content of one mutable dict object. -/
abbrev HDict := List (String × HVal)

/-- Heap maps addresses to live dict objects. -/
abbrev Heap := List (Nat × HDict)

/-- Heap.find reads the dict stored at an address. -/
def Heap.find : Heap → Nat → Option HDict
  | [], _ => none
  | (a, d) :: rest, addr => if a = addr then some d else Heap.find rest addr

/-- Heap.set overwrites the dict stored at an address (allocating the
address when it was not live). -/
def Heap.set : Heap → Nat → HDict → Heap
  | [], addr, d => [(addr, d)]
  | (a, d0) :: rest, addr, d =>
      if a = addr then (a, d) :: rest else (a, d0) :: Heap.set rest addr d

/-- Heap.fresh returns an address strictly above every live address. -/
def Heap.fresh (h : Heap) : Nat :=
  h.foldr (fun p acc => max (p.1 + 1) acc) 0

/-- HDict.find reads a dict entry. -/
def HDict.find : HDict → String → Option HVal
  | [], _ => none
  | (k0, v) :: rest, k => if k0 = k then some v else HDict.find rest k

/-- HDict.set is Python dict item assignment inside one dict object. -/
def HDict.set : HDict → String → HVal → HDict
  | [], k, v => [(k, v)]
  | (k0, v0) :: rest, k, v =>
      if k0 = k then (k0, v) :: rest else (k0, v0) :: HDict.set rest k v

/-- mergeLoop is the body of the heap-level deep-merge: it walks the
override dict's entries and writes each resolved value into the result
dict at address r, recursing through the given lower-level merge when
both sides hold dict references. -/
def mergeLoop (rec : Heap → Nat → Nat → Option (Heap × Nat)) :
    Heap → Nat → HDict → Option (Heap × Nat)
  | h, r, [] => some (h, r)
  | h, r, (k, v) :: rest =>
      match Heap.find h r with
      | none => none
      | some rd =>
          match HDict.find rd k, v with
          | some (.ref ba), .ref oa =>
              match rec h ba oa with
              | none => none
              | some (h2, m) =>
                  match Heap.find h2 r with
                  | none => none
                  | some rd2 =>
                      mergeLoop rec
                        (Heap.set h2 r (HDict.set rd2 k (.ref m))) r rest
          | _, _ => mergeLoop rec (Heap.set h r (HDict.set rd k v)) r rest

/-- Modelled from the spec: the deep-merge at the level of mutable dict
objects, mirroring the reference semantics of the missing Python code —
the result dict is a freshly allocated shallow copy of the base dict, the
loop then overwrites result entries only, and nested merges again
allocate fresh copies; a fuel argument bounds the recursion depth so the
function is total on arbitrary heaps. -/
def deepMergeH : Nat → Heap → Nat → Nat → Option (Heap × Nat)
  | 0, _, _, _ => none
  | fuel + 1, h, ba, oa =>
      match Heap.find h ba, Heap.find h oa with
      | some bd, some od =>
          mergeLoop (deepMergeH fuel) ((Heap.fresh h, bd) :: h) (Heap.fresh h) od
      | _, _ => none

/-- NodeFs models the node file system seen by fs.readFileSync: the full
path of every existing file is mapped to its contents. -/
structure NodeFs where
  files : String → Option String

/-- JsError separates the error thrown by fs.readFileSync on a missing
file from the loader core's NotFoundError, which the TypeScript helper
never produces. -/
inductive JsError where
  | fsReadFailed (path : String)
  | notFoundError (path : String)
deriving DecidableEq

/-- pathJoin models path.join of two segments. -/
def pathJoin (a b : String) : String :=
  a ++ "/" ++ b

/-- readFileSync returns the contents of an existing file and throws the
underlying read error for a missing one. -/
def readFileSync (fs : NodeFs) (p : String) : Except JsError String :=
  match fs.files p with
  | some c => .ok c
  | none => .error (.fsReadFailed p)

/-- loadConfig embeds the TypeScript helper printed in
docs/CONFIGURATION.md lines 253 to 257: join cwd, the literal segment
config and the argument into the full path, read that single file
synchronously, and return the YAML parse of its contents.  The yaml.load
parser is an opaque parameter. -/
def loadConfig (fs : NodeFs) (yamlLoad : String → Yaml) (cwd filePath : String) :
    Except JsError Yaml :=
  match readFileSync fs (pathJoin (pathJoin cwd "config") filePath) with
  | .error e => .error e
  | .ok fileContents => .ok (yamlLoad fileContents)

/-! Concrete fixtures used by the witnesses. -/

/-- exEnvX is an environment snapshot where only X is set, to 5. -/
def exEnvX : Env :=
  fun n => if n = "X" then some "5" else none

/-- exEnvNone is an environment snapshot with no variable set. -/
def exEnvNone : Env :=
  fun _ => none

/-- exBase is the spec's precedence scenario base mapping. -/
def exBase : YamlMap :=
  [("api", .map [("port", .int 8000), ("debug", .bool true)])]

/-- exOverride is the spec's precedence scenario override mapping. -/
def exOverride : YamlMap :=
  [("api", .map [("debug", .bool false)])]

/-- exKey is the main singleton document. -/
def exKey : DocKey :=
  ⟨"main", none⟩

/-- exSchemas assigns the port schema to the main domain and no
constraints elsewhere. -/
def exSchemas : String → Schema :=
  fun d => if d = "main" then portSchema else []

/-- exSources holds one valid main document with no active environment. -/
def exSources : Sources where
  baseFile := fun k => if k = exKey then some [("port", .int 8000)] else none
  overrideFile := fun _ _ => none
  envVars := exEnvNone
  activeEnv := none
  available := [exKey]

/-- exState0 is the empty loader state. -/
def exState0 : LoaderState :=
  ⟨[], 0⟩

/-- exD1 is the document exSources resolves for the main domain. -/
def exD1 : Doc :=
  ⟨0, [("port", .int 8000)]⟩

/-- exSt1 is the loader state after exD1 has been memoized. -/
def exSt1 : LoaderState :=
  ⟨[(exKey, exD1)], 1⟩

/-- debugCheck is the schema constraint for boolean debug flags. -/
def debugCheck : Yaml → Bool
  | .bool _ => true
  | _ => false

/-- exSchema2 declares two required fields so that one mapping can commit
two violations at once. -/
def exSchema2 : Schema :=
  [⟨"port", true, portCheck, "port must be between 1 and 65535"⟩,
   ⟨"debug", true, debugCheck, "debug must be a boolean"⟩]

/-- exKeyBad names a second main-domain document that fails validation. -/
def exKeyBad : DocKey :=
  ⟨"main", some "bad"⟩

/-- exSources2 holds one valid and one invalid document, for the
validate-everything isolation scenario. -/
def exSources2 : Sources where
  baseFile := fun k =>
    if k = exKey then some [("port", .int 8000)]
    else if k = exKeyBad then some [("port", .int 70000)] else none
  overrideFile := fun _ _ => none
  envVars := exEnvNone
  activeEnv := none
  available := [exKey, exKeyBad]

/-- exNodeFs is a node file system with no files. -/
def exNodeFs : NodeFs :=
  ⟨fun _ => none⟩

/-- exNodeFs2 is a node file system holding one main.yaml whose contents
are a raw substitution token. -/
def exNodeFs2 : NodeFs :=
  ⟨fun p => if p = "/app/config/main.yaml" then some "$\x7bX\x7d" else none⟩

/-- exParse is a parser stub mapping file contents to a string scalar. -/
def exParse : String → Yaml :=
  fun c => .str c

/-- exHeap holds two unrelated top-level dicts at addresses 0 and 1. -/
def exHeap : Heap :=
  [(0, [("a", .prim (.int 1))]), (1, [("a", .prim (.int 2))])]

/-- exHeap2 is exHeap after the heap-level merge allocated the result
dict at the fresh address 2; the dicts at 0 and 1 are untouched. -/
def exHeap2 : Heap :=
  [(2, [("a", .prim (.int 2))]),
   (0, [("a", .prim (.int 1))]), (1, [("a", .prim (.int 2))])]

end SelamConfig

namespace SelamConfig

/-! Supporting lemmas, followed by one theorem per claim. -/

theorem findset_self (m : YamlMap) (k : String) (v : Yaml) :
    YamlMap.find (YamlMap.set m k v) k = some v := by
  induction m with
  | nil => simp [YamlMap.set, YamlMap.find]
  | cons p rest ih =>
      obtain ⟨k0, v0⟩ := p
      by_cases h : k0 = k
      · simp [YamlMap.set, YamlMap.find, h]
      · simp [YamlMap.set, YamlMap.find, h, ih]

theorem findset_ne (m : YamlMap) (k k' : String) (v : Yaml) (h : k ≠ k') :
    YamlMap.find (YamlMap.set m k v) k' = YamlMap.find m k' := by
  induction m with
  | nil => simp [YamlMap.set, YamlMap.find, h]
  | cons p rest ih =>
      obtain ⟨k0, v0⟩ := p
      by_cases h0 : k0 = k
      · subst h0
        simp [YamlMap.set, YamlMap.find, h]
      · simp [YamlMap.set, YamlMap.find, h0, ih]

theorem find_eq_none_of_not_mem_keys (m : YamlMap) (k : String)
    (h : k ∉ YamlMap.keys m) : YamlMap.find m k = none := by
  induction m with
  | nil => simp [YamlMap.find]
  | cons p rest ih =>
      obtain ⟨k0, v0⟩ := p
      simp [YamlMap.keys] at h
      simp [YamlMap.find, Ne.symm h.1, ih h.2]

theorem deepMerge_find (ov : YamlMap) :
    ∀ (result : YamlMap) (k : String), (YamlMap.keys ov).Nodup →
      YamlMap.find (deepMerge result ov) k
        = mergeAtKey (YamlMap.find result k) (YamlMap.find ov k) := by
  induction ov with
  | nil =>
      intro result k _
      simp [deepMerge, YamlMap.find, mergeAtKey]
  | cons p rest ih =>
      obtain ⟨k0, v0⟩ := p
      intro result k hnd
      simp only [YamlMap.keys, List.nodup_cons] at hnd
      obtain ⟨hk0, hrest⟩ := hnd
      by_cases hk : k0 = k
      · subst hk
        have hrf : YamlMap.find rest k0 = none :=
          find_eq_none_of_not_mem_keys rest k0 hk0
        cases hb : YamlMap.find result k0 with
        | none =>
            cases v0 <;>
              simp [deepMerge, hb, ih _ _ hrest, hrf, findset_self,
                mergeAtKey, YamlMap.find]
        | some bv =>
            cases bv <;> cases v0 <;>
              simp [deepMerge, hb, ih _ _ hrest, hrf, findset_self,
                mergeAtKey, YamlMap.find]
      · cases hb : YamlMap.find result k0 with
        | none =>
            cases v0 <;>
              simp [deepMerge, hb, ih _ _ hrest, findset_ne _ _ _ _ hk,
                YamlMap.find, hk]
        | some bv =>
            cases bv <;> cases v0 <;>
              simp [deepMerge, hb, ih _ _ hrest, findset_ne _ _ _ _ hk,
                YamlMap.find, hk]

theorem set_eq_append_of_not_mem (m : YamlMap) (k : String) (v : Yaml)
    (h : k ∉ YamlMap.keys m) : YamlMap.set m k v = m ++ [(k, v)] := by
  induction m with
  | nil => simp [YamlMap.set]
  | cons p rest ih =>
      obtain ⟨k0, v0⟩ := p
      simp only [YamlMap.keys, List.mem_cons] at h
      push_neg at h
      simp [YamlMap.set, Ne.symm h.1, ih h.2]

theorem keys_append (a b : YamlMap) :
    YamlMap.keys (a ++ b) = YamlMap.keys a ++ YamlMap.keys b := by
  induction a with
  | nil => simp [YamlMap.keys]
  | cons p rest ih =>
      obtain ⟨k0, v0⟩ := p
      simp [YamlMap.keys, ih]

theorem deepMerge_disjoint_eq_append (ov : YamlMap) :
    ∀ (acc : YamlMap), (YamlMap.keys ov).Nodup →
      (∀ x ∈ YamlMap.keys ov, x ∉ YamlMap.keys acc) →
      deepMerge acc ov = acc ++ ov := by
  induction ov with
  | nil =>
      intro acc _ _
      simp [deepMerge]
  | cons p rest ih =>
      obtain ⟨k0, v0⟩ := p
      intro acc hnd hdisj
      simp only [YamlMap.keys, List.nodup_cons] at hnd
      obtain ⟨hk0, hrest⟩ := hnd
      have hacc : k0 ∉ YamlMap.keys acc := by
        refine hdisj k0 ?_
        simp [YamlMap.keys]
      have hbf : YamlMap.find acc k0 = none :=
        find_eq_none_of_not_mem_keys acc k0 hacc
      have hset : YamlMap.set acc k0 v0 = acc ++ [(k0, v0)] :=
        set_eq_append_of_not_mem acc k0 v0 hacc
      have hdisj' : ∀ x ∈ YamlMap.keys rest,
          x ∉ YamlMap.keys (acc ++ [(k0, v0)]) := by
        intro x hx
        rw [keys_append]
        simp only [List.mem_append]
        push_neg
        constructor
        · exact hdisj x (by simp [YamlMap.keys, hx])
        · simp [YamlMap.keys]
          rintro rfl
          exact hk0 hx
      have step : deepMerge acc ((k0, v0) :: rest)
          = deepMerge (acc ++ [(k0, v0)]) rest := by
        cases v0 <;> simp [deepMerge, hbf, hset]
      rw [step, ih _ hrest hdisj', List.append_assoc]
      simp

theorem scanAux_body (env : Env) (body : List Char) :
    ∀ (buf rest : List Char), '\x7d' ∉ body →
      scanAux env (some buf) (body ++ '\x7d' :: rest)
        = applyVar env (buf ++ body) ++ scanAux env none rest := by
  induction body with
  | nil =>
      intro buf rest _
      simp [scanAux]
  | cons c body ih =>
      intro buf rest h
      simp only [List.mem_cons] at h
      push_neg at h
      obtain ⟨hc, hbody⟩ := h
      have step : scanAux env (some buf) (c :: (body ++ '\x7d' :: rest))
          = scanAux env (some (buf ++ [c])) (body ++ '\x7d' :: rest) := by
        simp [scanAux, Ne.symm hc]
      rw [List.cons_append, step, ih _ _ hbody]
      simp

theorem splitVarDefault_no_colon (name : List Char) (h : ':' ∉ name) :
    splitVarDefault name = (name, none) := by
  induction name with
  | nil => simp [splitVarDefault]
  | cons c rest ih =>
      simp only [List.mem_cons] at h
      push_neg at h
      obtain ⟨hc, hrest⟩ := h
      simp [splitVarDefault, Ne.symm hc, ih hrest]

theorem splitVarDefault_with_default (name d : List Char) (h : ':' ∉ name) :
    splitVarDefault (name ++ ':' :: '-' :: d) = (name, some d) := by
  induction name with
  | nil => simp [splitVarDefault]
  | cons c rest ih =>
      simp only [List.mem_cons] at h
      push_neg at h
      obtain ⟨hc, hrest⟩ := h
      simp [splitVarDefault, Ne.symm hc, ih hrest]

theorem scanAux_token (env : Env) (body rest : List Char)
    (h : '\x7d' ∉ body) :
    scanAux env none ('$' :: '\x7b' :: (body ++ '\x7d' :: rest))
      = applyVar env body ++ scanAux env none rest := by
  have step : scanAux env none ('$' :: '\x7b' :: (body ++ '\x7d' :: rest))
      = scanAux env (some []) (body ++ '\x7d' :: rest) := by
    simp [scanAux]
  rw [step]
  simpa using scanAux_body env body [] rest h

/-- C1: pointwise behaviour of the deep-merge, for override mappings with
distinct keys (as parsed documents have): at a key where both the base
and the override hold nested mappings, the merged value is the recursive
merge of the two sub-mappings; at any other key present in the override
(scalar, list, or type-mismatched nesting) the merged value is the
override's value, so keys only in the override are added; at a key absent
from the override the base's value is preserved. -/
theorem claim_C1_deepMerge_pointwise (base ov : YamlMap) (k : String)
    (hnd : (YamlMap.keys ov).Nodup) :
    (∀ om bm, YamlMap.find ov k = some (.map om) →
        YamlMap.find base k = some (.map bm) →
        YamlMap.find (deepMerge base ov) k = some (.map (deepMerge bm om)))
  ∧ (∀ v, YamlMap.find ov k = some v →
        (∀ om bm, ¬(v = Yaml.map om
            ∧ YamlMap.find base k = some (.map bm))) →
        YamlMap.find (deepMerge base ov) k = some v)
  ∧ (YamlMap.find ov k = none →
        YamlMap.find (deepMerge base ov) k = YamlMap.find base k) := by
  refine ⟨?_, ?_, ?_⟩
  · intro om bm ho hb
    rw [deepMerge_find ov base k hnd, ho, hb]
    simp [mergeAtKey]
  · intro v ho hnot
    rw [deepMerge_find ov base k hnd, ho]
    cases hb : YamlMap.find base k with
    | none => cases v <;> simp [mergeAtKey]
    | some bv =>
        cases bv <;> cases v <;> simp [mergeAtKey]
        rename_i om bm
        exact absurd ⟨rfl, hb⟩ (hnot bm om)
  · intro ho
    rw [deepMerge_find ov base k hnd, ho]
    cases hb : YamlMap.find base k with
    | none => simp [mergeAtKey]
    | some bv => cases bv <;> simp [mergeAtKey]

/-- C1 witness: the documented precedence scenario — base api holding
port 8000 and debug true, override api holding debug false — takes the
recursive-merge branch at the api key. -/
theorem claim_C1_witness :
    YamlMap.find (deepMerge exBase exOverride) "api"
      = some (.map (deepMerge [("port", .int 8000), ("debug", .bool true)]
          [("debug", .bool false)])) := by
  have h := claim_C1_deepMerge_pointwise exBase exOverride "api"
    (by simp [exOverride, YamlMap.keys])
  exact h.1 [("debug", .bool false)]
    [("port", .int 8000), ("debug", .bool true)] rfl rfl

/-- C7: the empty mapping is a right identity of the merge for every
mapping, and a left identity for every override mapping with distinct
keys. -/
theorem claim_C7_merge_identity (m ov : YamlMap)
    (hnd : (YamlMap.keys ov).Nodup) :
    deepMerge m [] = m ∧ deepMerge [] ov = ov := by
  constructor
  · simp [deepMerge]
  · have h := deepMerge_disjoint_eq_append ov [] hnd
      (by intro x hx; simp [YamlMap.keys])
    simpa using h

/-- C7 witness: both identity laws at the documented example mappings. -/
theorem claim_C7_witness :
    deepMerge exBase [] = exBase ∧ deepMerge [] exOverride = exOverride :=
  claim_C7_merge_identity exBase exOverride
    (by simp [exOverride, YamlMap.keys])

theorem applyVar_plain_set (env : Env) (name : List Char) (v : String)
    (hc : ':' ∉ name) (hv : env (String.mk name) = some v) :
    applyVar env name = v.data := by
  simp [applyVar, splitVarDefault_no_colon name hc, hv]

theorem applyVar_plain_unset (env : Env) (name : List Char)
    (hc : ':' ∉ name) (hv : env (String.mk name) = none) :
    applyVar env name = '$' :: '\x7b' :: (name ++ ['\x7d']) := by
  simp [applyVar, splitVarDefault_no_colon name hc, hv]

theorem applyVar_default_set (env : Env) (name d : List Char) (v : String)
    (hc : ':' ∉ name) (hv : env (String.mk name) = some v) :
    applyVar env (name ++ ':' :: '-' :: d) = v.data := by
  simp [applyVar, splitVarDefault_with_default name d hc, hv]

theorem applyVar_default_unset (env : Env) (name d : List Char)
    (hc : ':' ∉ name) (hv : env (String.mk name) = none) :
    applyVar env (name ++ ':' :: '-' :: d) = d := by
  simp [applyVar, splitVarDefault_with_default name d hc, hv]

/-- C2: environment-variable substitution on string leaf values.  For a
well-formed token over variable NAME: when NAME is set its value replaces
the token and scanning continues only after the token, so the substituted
value is never re-expanded; when NAME is unset a plain token is left
verbatim while a token with a default collapses to the default text.
Concretely, with X set to 5 the string holding the X token becomes 5;
with X unset the defaulted token becomes 9 and the plain token stays the
literal token; a substituted value containing a token of Y is not
expanded again; and the document walker applies exactly this substitution
to string leaves. -/
theorem claim_C2_substitution (env : Env) (name d rest : List Char)
    (v : String) (h1 : '\x7d' ∉ name) (h2 : ':' ∉ name)
    (h3 : '\x7d' ∉ d) :
    (env (String.mk name) = some v →
      scanAux env none ('$' :: '\x7b' :: (name ++ '\x7d' :: rest))
        = v.data ++ scanAux env none rest)
  ∧ (env (String.mk name) = none →
      scanAux env none ('$' :: '\x7b' :: (name ++ '\x7d' :: rest))
        = '$' :: '\x7b' :: (name ++ '\x7d' :: scanAux env none rest))
  ∧ (env (String.mk name) = some v →
      scanAux env none
          ('$' :: '\x7b' :: ((name ++ ':' :: '-' :: d) ++ '\x7d' :: rest))
        = v.data ++ scanAux env none rest)
  ∧ (env (String.mk name) = none →
      scanAux env none
          ('$' :: '\x7b' :: ((name ++ ':' :: '-' :: d) ++ '\x7d' :: rest))
        = d ++ scanAux env none rest)
  ∧ substString exEnvX "$\x7bX\x7d" = "5"
  ∧ substString exEnvNone "$\x7bX:-9\x7d" = "9"
  ∧ substString exEnvNone "$\x7bX\x7d" = "$\x7bX\x7d"
  ∧ substString
      (fun n => if n = "X" then some "$\x7bY\x7d"
        else if n = "Y" then some "Z" else none) "$\x7bX\x7d"
      = "$\x7bY\x7d"
  ∧ (∀ s, substYaml env (.str s) = .str (substString env s)) := by
  have hbody : '\x7d' ∉ (name ++ ':' :: '-' :: d) := by
    intro hm
    rcases List.mem_append.1 hm with hmm | hmm
    · exact h1 hmm
    · rcases List.mem_cons.1 hmm with hcc | hmm2
      · exact absurd hcc (by decide)
      · rcases List.mem_cons.1 hmm2 with hcc | hmm3
        · exact absurd hcc (by decide)
        · exact h3 hmm3
  refine ⟨?_, ?_, ?_, ?_, rfl, rfl, rfl, rfl, fun s => ?_⟩
  · intro hv
    rw [scanAux_token env name rest h1, applyVar_plain_set env name v h2 hv]
  · intro hv
    rw [scanAux_token env name rest h1, applyVar_plain_unset env name h2 hv]
    simp
  · intro hv
    rw [scanAux_token env (name ++ ':' :: '-' :: d) rest hbody,
      applyVar_default_set env name d v h2 hv]
  · intro hv
    rw [scanAux_token env (name ++ ':' :: '-' :: d) rest hbody,
      applyVar_default_unset env name d h2 hv]
  · simp [substYaml]

/-- C2 witness: the plain token over the set variable X substitutes to
the value 5 at the character level. -/
theorem claim_C2_witness :
    scanAux exEnvX none ('$' :: '\x7b' :: (['X'] ++ '\x7d' :: []))
      = "5".data ++ scanAux exEnvX none [] := by
  have h := claim_C2_substitution exEnvX ['X'] [] [] "5"
    (by decide) (by decide) (by decide)
  exact h.1 (by decide)

/-- C4: binding the mapping holding port 70000 against the port schema
fails with a ValidationError whose every violation names the port field,
while binding port 8000 succeeds and the bound document's port field is
8000. -/
theorem claim_C4_port_validation :
    bindDocument portSchema [("port", .int 70000)]
      = .error ⟨[⟨"port", "port must be between 1 and 65535",
          some (.int 70000)⟩]⟩
  ∧ (∃ e, bindDocument portSchema [("port", .int 70000)] = .error e
      ∧ ∀ w ∈ e.violationList, w.fieldPath = "port")
  ∧ bindDocument portSchema [("port", .int 8000)] = .ok [("port", .int 8000)]
  ∧ YamlMap.find [("port", .int 8000)] "port" = some (.int 8000) := by
  refine ⟨rfl, ⟨⟨[⟨"port", "port must be between 1 and 65535",
      some (.int 70000)⟩]⟩, rfl, ?_⟩, rfl, rfl⟩
  intro w hw
  rcases List.mem_singleton.1 hw with rfl
  rfl

/-- C5: when binding fails, the single ValidationError carries exactly the
complete collected violation list, that list is nonempty, and every
declared field's violations — not only the first violation encountered —
are contained in it. -/
theorem claim_C5_all_violations (sch : Schema) (m : YamlMap)
    (e : ValidationError) (h : bindDocument sch m = .error e) :
    e.violationList = violations sch m
  ∧ violations sch m ≠ []
  ∧ ∀ f ∈ sch, ∀ w ∈ fieldViolations m f, w ∈ e.violationList := by
  cases hv : violations sch m with
  | nil => simp [bindDocument, hv] at h
  | cons v vs =>
      simp only [bindDocument, hv] at h
      cases h
      refine ⟨by simp [hv], by simp [hv], ?_⟩
      intro f hf w hw
      have hmem : w ∈ violations sch m := by
        simp only [violations, List.mem_flatten]
        exact ⟨fieldViolations m f, List.mem_map_of_mem _ hf, hw⟩
      simpa [hv] using hmem

/-- C5 witness: a mapping violating both declared fields of a two-field
schema produces one error carrying both violations. -/
theorem claim_C5_witness :
    (ValidationError.mk [⟨"port", "port must be between 1 and 65535",
        some (.int 70000)⟩,
      ⟨"debug", "required field is missing", none⟩]).violationList
      = violations exSchema2 [("port", .int 70000)]
  ∧ violations exSchema2 [("port", .int 70000)] ≠ []
  ∧ ∀ f ∈ exSchema2, ∀ w ∈ fieldViolations [("port", .int 70000)] f,
      w ∈ (ValidationError.mk [⟨"port", "port must be between 1 and 65535",
        some (.int 70000)⟩,
        ⟨"debug", "required field is missing", none⟩]).violationList :=
  claim_C5_all_violations exSchema2 [("port", .int 70000)]
    ⟨[⟨"port", "port must be between 1 and 65535", some (.int 70000)⟩,
      ⟨"debug", "required field is missing", none⟩]⟩ rfl

theorem heap_findset_ne (h : Heap) (addr a : Nat) (d : HDict)
    (hne : addr ≠ a) : Heap.find (Heap.set h addr d) a = Heap.find h a := by
  induction h with
  | nil => simp [Heap.set, Heap.find, hne]
  | cons p rest ih =>
      obtain ⟨a0, d0⟩ := p
      by_cases h0 : a0 = addr
      · subst h0
        simp [Heap.set, Heap.find, hne]
      · simp [Heap.set, Heap.find, h0, ih]

theorem fresh_le_find_none (h : Heap) :
    ∀ a, Heap.fresh h ≤ a → Heap.find h a = none := by
  induction h with
  | nil => intro a _; rfl
  | cons p rest ih =>
      obtain ⟨a0, d0⟩ := p
      intro a hle
      simp only [Heap.fresh, List.foldr] at hle
      rw [Nat.max_le] at hle
      have hne : a0 ≠ a := by omega
      have : Heap.fresh rest ≤ a := hle.2
      simp [Heap.find, hne, ih a this]

theorem mergeLoop_frame (rec : Heap → Nat → Nat → Option (Heap × Nat))
    (hrec : ∀ h ba oa h2 m, rec h ba oa = some (h2, m) →
        ∀ a, (Heap.find h a).isSome → Heap.find h2 a = Heap.find h a)
    (od : HDict) :
    ∀ (h : Heap) (r : Nat) (h' : Heap) (r' : Nat),
      mergeLoop rec h r od = some (h', r') →
      ∀ a, a ≠ r → (Heap.find h a).isSome →
        Heap.find h' a = Heap.find h a := by
  induction od with
  | nil =>
      intro h r h' r' hml a hne hsome
      simp only [mergeLoop, Option.some.injEq, Prod.mk.injEq] at hml
      rw [← hml.1]
  | cons p rest ih =>
      obtain ⟨k, v⟩ := p
      intro h r h' r' hml a hne hsome
      cases hr : Heap.find h r with
      | none => simp [mergeLoop, hr] at hml
      | some rd =>
          simp only [mergeLoop, hr] at hml
          have hsetsome : ∀ (x : HVal),
              (Heap.find (Heap.set h r (HDict.set rd k x)) a).isSome := by
            intro x
            rw [heap_findset_ne h r a _ (Ne.symm hne)]
            exact hsome
          have hsetstep : ∀ (x : HVal),
              mergeLoop rec (Heap.set h r (HDict.set rd k x)) r rest
                  = some (h', r') →
              Heap.find h' a = Heap.find h a := by
            intro x hml2
            have e := ih _ _ _ _ hml2 a hne (hsetsome x)
            rw [e, heap_findset_ne h r a _ (Ne.symm hne)]
          cases hdv : HDict.find rd k with
          | none =>
              simp only [hdv] at hml
              exact hsetstep v hml
          | some hv0 =>
              cases hv0 with
              | prim y =>
                  simp only [hdv] at hml
                  exact hsetstep v hml
              | ref ba =>
                  cases v with
                  | prim y2 =>
                      simp only [hdv] at hml
                      exact hsetstep (.prim y2) hml
                  | ref oa =>
                      simp only [hdv] at hml
                      cases hrec0 : rec h ba oa with
                      | none => simp [hrec0] at hml
                      | some p2 =>
                          obtain ⟨h2, m⟩ := p2
                          simp only [hrec0] at hml
                          have e1 : Heap.find h2 a = Heap.find h a :=
                            hrec _ _ _ _ _ hrec0 a hsome
                          cases hr2 : Heap.find h2 r with
                          | none => simp [hr2] at hml
                          | some rd2 =>
                              simp only [hr2] at hml
                              have hsome2 :
                                  (Heap.find (Heap.set h2 r
                                    (HDict.set rd2 k (.ref m))) a).isSome := by
                                rw [heap_findset_ne h2 r a _ (Ne.symm hne), e1]
                                exact hsome
                              have e2 := ih _ _ _ _ hml a hne hsome2
                              rw [e2, heap_findset_ne h2 r a _ (Ne.symm hne), e1]

theorem deepMergeH_frame :
    ∀ (fuel : Nat) (h : Heap) (ba oa : Nat) (h' : Heap) (r : Nat),
      deepMergeH fuel h ba oa = some (h', r) →
      ∀ a, (Heap.find h a).isSome → Heap.find h' a = Heap.find h a := by
  intro fuel
  induction fuel with
  | zero =>
      intro h ba oa h' r hrun
      simp [deepMergeH] at hrun
  | succ fuel ih =>
      intro h ba oa h' r hrun a hsome
      cases hb : Heap.find h ba with
      | none => simp [deepMergeH, hb] at hrun
      | some bd =>
          cases ho : Heap.find h oa with
          | none => simp [deepMergeH, hb, ho] at hrun
          | some od =>
              simp only [deepMergeH, hb, ho] at hrun
              have hne : a ≠ Heap.fresh h := by
                intro heq
                rw [heq, fresh_le_find_none h _ (le_refl _)] at hsome
                simp at hsome
              have hsome1 :
                  (Heap.find ((Heap.fresh h, bd) :: h) a).isSome := by
                simp [Heap.find, Ne.symm hne]
                exact hsome
              have e := mergeLoop_frame (deepMergeH fuel) ih od _ _ _ _
                hrun a hne hsome1
              rw [e]
              simp [Heap.find, Ne.symm hne]

/-- C9: the merge at the level of mutable dict objects is deterministic —
equal heaps and input addresses produce equal results — and has no side
effect on either input: the dicts at the base and override addresses, and
every other dict live before the call (in particular all nested
sub-dicts of both inputs), are unchanged in the result heap, since the
merge writes only to freshly allocated result dicts. -/
theorem claim_C9_merge_pure (fuel : Nat) (h : Heap) (ba oa : Nat)
    (h' : Heap) (r : Nat)
    (hrun : deepMergeH fuel h ba oa = some (h', r)) :
    (∀ h2 ba2 oa2, h = h2 → ba = ba2 → oa = oa2 →
        deepMergeH fuel h ba oa = deepMergeH fuel h2 ba2 oa2)
  ∧ Heap.find h' ba = Heap.find h ba
  ∧ Heap.find h' oa = Heap.find h oa
  ∧ (∀ a, (Heap.find h a).isSome → Heap.find h' a = Heap.find h a) := by
  have hframe := deepMergeH_frame fuel h ba oa h' r hrun
  have hba : (Heap.find h ba).isSome := by
    cases fuel with
    | zero => simp [deepMergeH] at hrun
    | succ fuel =>
        cases hb : Heap.find h ba with
        | none => simp [deepMergeH, hb] at hrun
        | some bd => simp
  have hoa : (Heap.find h oa).isSome := by
    cases fuel with
    | zero => simp [deepMergeH] at hrun
    | succ fuel =>
        cases hb : Heap.find h ba with
        | none => simp [deepMergeH, hb] at hrun
        | some bd =>
            cases ho : Heap.find h oa with
            | none => simp [deepMergeH, hb, ho] at hrun
            | some od => simp
  exact ⟨fun h2 ba2 oa2 e1 e2 e3 => by rw [e1, e2, e3],
    hframe ba hba, hframe oa hoa, hframe⟩

/-- C9 witness: merging the two dicts at addresses 0 and 1 of the example
heap allocates the result at the fresh address 2 and leaves the dicts at
0 and 1 — and every live address — unchanged. -/
theorem claim_C9_witness :
    (∀ h2 ba2 oa2, exHeap = h2 → 0 = ba2 → 1 = oa2 →
        deepMergeH 1 exHeap 0 1 = deepMergeH 1 h2 ba2 oa2)
  ∧ Heap.find exHeap2 0 = Heap.find exHeap 0
  ∧ Heap.find exHeap2 1 = Heap.find exHeap 1
  ∧ (∀ a, (Heap.find exHeap a).isSome →
      Heap.find exHeap2 a = Heap.find exHeap a) :=
  claim_C9_merge_pure 1 exHeap 0 1 exHeap2 2 rfl

/-- C10: the TypeScript loadConfig of docs/CONFIGURATION.md returns
exactly the YAML parse of the single file at cwd/config/filePath — the
parser applied to the raw contents, with no override merging, no
substitution and no validation (concretely, a file holding a raw
substitution token is returned verbatim even though substitution would
rewrite it) — and a missing file surfaces the underlying read error,
never the loader core's NotFoundError. -/
theorem claim_C10_loadConfig (fs : NodeFs) (yamlLoad : String → Yaml)
    (cwd p : String) :
    loadConfig fs yamlLoad cwd p
      = (readFileSync fs (pathJoin (pathJoin cwd "config") p)).map yamlLoad
  ∧ (∀ c, fs.files (pathJoin (pathJoin cwd "config") p) = some c →
      loadConfig fs yamlLoad cwd p = .ok (yamlLoad c))
  ∧ (fs.files (pathJoin (pathJoin cwd "config") p) = none →
      loadConfig fs yamlLoad cwd p
        = .error (.fsReadFailed (pathJoin (pathJoin cwd "config") p))
      ∧ ∀ q, loadConfig fs yamlLoad cwd p ≠ .error (.notFoundError q))
  ∧ loadConfig exNodeFs2 exParse "/app" "main.yaml" = .ok (.str "$\x7bX\x7d")
  ∧ substString exEnvX "$\x7bX\x7d" ≠ "$\x7bX\x7d" := by
  refine ⟨?_, ?_, ?_, rfl, by decide⟩
  · cases hf : fs.files (pathJoin (pathJoin cwd "config") p) <;>
      simp [loadConfig, readFileSync, hf, Except.map]
  · intro c hf
    simp [loadConfig, readFileSync, hf]
  · intro hf
    refine ⟨by simp [loadConfig, readFileSync, hf], ?_⟩
    intro q
    simp [loadConfig, readFileSync, hf]

/-- C10 witness: with an empty file system the read of main.yaml fails
with the raw file-system error and not with a NotFoundError. -/
theorem claim_C10_witness :
    loadConfig exNodeFs exParse "/app" "main.yaml"
      = .error (.fsReadFailed "/app/config/main.yaml")
  ∧ ∀ q, loadConfig exNodeFs exParse "/app" "main.yaml"
      ≠ .error (.notFoundError q) :=
  (claim_C10_loadConfig exNodeFs exParse "/app" "main.yaml").2.2.1 rfl

theorem lookupKey_mem (c : List (DocKey × Doc)) (k : DocKey) (d : Doc)
    (h : lookupKey c k = some d) : (k, d) ∈ c := by
  induction c with
  | nil => simp [lookupKey] at h
  | cons p rest ih =>
      obtain ⟨k0, d0⟩ := p
      by_cases h0 : k0 = k
      · subst h0
        have h' : d0 = d := by simpa [lookupKey] using h
        subst h'
        exact List.mem_cons_self _ _
      · simp only [lookupKey, if_neg h0] at h
        exact List.mem_cons_of_mem _ (ih h)

theorem bindDocument_ok (sch : Schema) (m b : YamlMap)
    (h : bindDocument sch m = .ok b) :
    b = m ∧ violations sch m = [] := by
  cases hv : violations sch m with
  | nil =>
      simp only [bindDocument, hv] at h
      cases h
      exact ⟨rfl, rfl⟩
  | cons v vs => simp [bindDocument, hv] at h

theorem resolveDoc_ok (s : Sources) (sch : String → Schema) (k : DocKey)
    (m : YamlMap) (h : resolveDoc s sch k = .ok m) :
    violations (sch k.domain) m = [] := by
  cases hl : loadResolved s k with
  | error e => simp [resolveDoc, hl] at h
  | ok m0 =>
      simp only [resolveDoc, hl] at h
      cases hb : bindDocument (sch k.domain) m0 with
      | error e => simp [hb] at h
      | ok b =>
          simp only [hb] at h
          cases h
          obtain ⟨rfl, hv⟩ := bindDocument_ok _ _ _ hb
          exact hv

/-- C3: without an intervening reload, a second get returns the very same
memoized document and leaves the state unchanged; reloadAll empties the
cache unconditionally; and a get after reloadAll re-runs the pipeline
against the then-current sources, returning a document with a fresh
instance identifier whose content is the re-read resolved mapping. -/
theorem claim_C3_cache (s s2 : Sources) (sch : String → Schema)
    (st st1 : LoaderState) (k : DocKey) (d1 : Doc)
    (hwf : StWF sch st) (h1 : getDoc s sch st k = .ok (d1, st1)) :
    getDoc s sch st1 k = .ok (d1, st1)
  ∧ (reloadAll st1).cache = []
  ∧ (∀ d2 st2, getDoc s2 sch (reloadAll st1) k = .ok (d2, st2) →
      d2.instanceId ≠ d1.instanceId
      ∧ resolveDoc s2 sch k = .ok d2.content) := by
  cases hc : lookupKey st.cache k with
  | some d =>
      simp only [getDoc, hc, Except.ok.injEq, Prod.mk.injEq] at h1
      obtain ⟨h1a, h1b⟩ := h1
      subst h1a
      subst h1b
      have hid : d.instanceId < st.nextId := (hwf _ (lookupKey_mem _ _ _ hc)).2
      refine ⟨by simp [getDoc, hc], rfl, ?_⟩
      intro d2 st2 h2
      simp only [getDoc, reloadAll, lookupKey] at h2
      cases hre2 : resolveDoc s2 sch k with
      | error e => simp [hre2] at h2
      | ok m2 =>
          simp only [hre2, Except.ok.injEq, Prod.mk.injEq] at h2
          obtain ⟨h2a, h2b⟩ := h2
          subst h2a
          subst h2b
          exact ⟨Nat.ne_of_gt hid, rfl⟩
  | none =>
      simp only [getDoc, hc] at h1
      cases hre : resolveDoc s sch k with
      | error e => simp [hre] at h1
      | ok m =>
          simp only [hre, Except.ok.injEq, Prod.mk.injEq] at h1
          obtain ⟨h1a, h1b⟩ := h1
          subst h1a
          subst h1b
          refine ⟨by simp [getDoc, lookupKey], rfl, ?_⟩
          intro d2 st2 h2
          simp only [getDoc, reloadAll, lookupKey] at h2
          cases hre2 : resolveDoc s2 sch k with
          | error e => simp [hre2] at h2
          | ok m2 =>
              simp only [hre2, Except.ok.injEq, Prod.mk.injEq] at h2
              obtain ⟨h2a, h2b⟩ := h2
              subst h2a
              subst h2b
              exact ⟨Nat.ne_of_gt (Nat.lt_succ_self _), rfl⟩

/-- C3 witness: with the example sources, the state holding the memoized
main document serves the same instance again; the reload empties the
cache; and the subsequent get yields a document with a different instance
identifier re-resolved from the sources. -/
theorem claim_C3_witness :
    getDoc exSources exSchemas exSt1 exKey = .ok (exD1, exSt1)
  ∧ (reloadAll exSt1).cache = []
  ∧ (∀ d2 st2,
      getDoc exSources exSchemas (reloadAll exSt1) exKey = .ok (d2, st2) →
      d2.instanceId ≠ exD1.instanceId
      ∧ resolveDoc exSources exSchemas exKey = .ok d2.content) :=
  claim_C3_cache exSources exSources exSchemas exState0 exSt1 exKey exD1
    (by intro p hp; simp [exState0] at hp) rfl

/-- C6: no unvalidated mapping reaches a caller: a document returned by
get has an empty violation list for its domain's schema and the cache
invariant is preserved, and any mapping the load-merge-validate pipeline
resolves has likewise passed validation. -/
theorem claim_C6_validated (s : Sources) (sch : String → Schema)
    (st : LoaderState) (k : DocKey) (hwf : StWF sch st) :
    (∀ d st', getDoc s sch st k = .ok (d, st') →
        violations (sch k.domain) d.content = [] ∧ StWF sch st')
  ∧ (∀ m, resolveDoc s sch k = .ok m →
      violations (sch k.domain) m = []) := by
  constructor
  · intro d st' h
    cases hc : lookupKey st.cache k with
    | some d0 =>
        simp only [getDoc, hc] at h
        cases h
        exact ⟨(hwf _ (lookupKey_mem _ _ _ hc)).1, hwf⟩
    | none =>
        simp only [getDoc, hc] at h
        cases hre : resolveDoc s sch k with
        | error e => simp [hre] at h
        | ok m =>
            simp only [hre] at h
            cases h
            have hv := resolveDoc_ok s sch k m hre
            refine ⟨hv, ?_⟩
            intro p hp
            rcases List.mem_cons.1 hp with rfl | hp2
            · exact ⟨hv, Nat.lt_succ_self _⟩
            · obtain ⟨ha, hb⟩ := hwf p hp2
              exact ⟨ha, Nat.lt_succ_of_lt hb⟩
  · intro m h
    exact resolveDoc_ok s sch k m h

/-- C6 witness: the document the example sources deliver for the main
domain has passed the port schema and the invariant carries over to the
populated state. -/
theorem claim_C6_witness :
    violations (exSchemas exKey.domain) exD1.content = []
  ∧ StWF exSchemas exSt1 :=
  (claim_C6_validated exSources exSchemas exState0 exKey
    (by intro p hp; simp [exState0] at hp)).1 exD1 exSt1 rfl

/-- C8: validateAll reports one entry per discoverable document in
catalog order, each outcome being that document's own pipeline outcome,
so a failing document is recorded in place and stops nothing; a
document's outcome depends only on its own source files and the shared
loader context, so another document's failure cannot change it; and in
the concrete two-document scenario the passing and the failing document
both appear, each tagged with its own outcome. -/
theorem claim_C8_validateAll (s s' : Sources) (sch : String → Schema)
    (k : DocKey)
    (hbase : s.baseFile k = s'.baseFile k)
    (hov : ∀ e, s.overrideFile e k = s'.overrideFile e k)
    (henv : s.envVars = s'.envVars)
    (hact : s.activeEnv = s'.activeEnv) :
    (validateAll s sch).map Prod.fst = s.available
  ∧ (∀ p ∈ validateAll s sch, p.2 = checkDoc s sch p.1)
  ∧ (k ∈ s.available → (k, checkDoc s sch k) ∈ validateAll s sch)
  ∧ checkDoc s sch k = checkDoc s' sch k
  ∧ (exKey, Except.ok ()) ∈ validateAll exSources2 exSchemas
  ∧ (exKeyBad, Except.error (.validation
      ⟨[⟨"port", "port must be between 1 and 65535",
        some (.int 70000)⟩]⟩)) ∈ validateAll exSources2 exSchemas := by
  have e2 : validateAll exSources2 exSchemas
      = [(exKey, Except.ok ()),
         (exKeyBad, Except.error (.validation
           ⟨[⟨"port", "port must be between 1 and 65535",
             some (.int 70000)⟩]⟩))] := rfl
  refine ⟨?_, ?_, ?_, ?_, ?_, ?_⟩
  · have hcomp : (Prod.fst ∘ fun k0 => (k0, checkDoc s sch k0)) = id := by
      funext x
      rfl
    simp [validateAll, hcomp]
  · intro p hp
    simp only [validateAll, List.mem_map] at hp
    obtain ⟨k0, hk0, rfl⟩ := hp
    rfl
  · intro hk
    simp only [validateAll, List.mem_map]
    exact ⟨k, hk, rfl⟩
  · simp [checkDoc, resolveDoc, loadResolved, hbase, henv, hact, hov]
  · rw [e2]
    exact List.mem_cons_self _ _
  · rw [e2]
    exact List.mem_cons_of_mem _ (List.mem_cons_self _ _)

/-- C8 witness: the isolation properties instantiated at the
two-document sources where one document passes and the other fails. -/
theorem claim_C8_witness :
    (validateAll exSources2 exSchemas).map Prod.fst = exSources2.available
  ∧ (∀ p ∈ validateAll exSources2 exSchemas,
      p.2 = checkDoc exSources2 exSchemas p.1)
  ∧ (exKey ∈ exSources2.available →
      (exKey, checkDoc exSources2 exSchemas exKey)
        ∈ validateAll exSources2 exSchemas)
  ∧ checkDoc exSources2 exSchemas exKey = checkDoc exSources2 exSchemas exKey
  ∧ (exKey, Except.ok ()) ∈ validateAll exSources2 exSchemas
  ∧ (exKeyBad, Except.error (.validation
      ⟨[⟨"port", "port must be between 1 and 65535",
        some (.int 70000)⟩]⟩)) ∈ validateAll exSources2 exSchemas :=
  claim_C8_validateAll exSources2 exSources2 exSchemas exKey
    rfl (fun _ => rfl) rfl rfl

end SelamConfig
